import Mathlib

/-!
# Verification of the promptgen template engine against its specification

This file embeds, in Lean, the parts of the promptgen repository that the
verified claims are about:

* the CodeMirror syntax-highlighting tokenizer
  (`client/packages/ui/src/components/TemplateEditor/highlighting.ts`,
  function `tokenize`),
* the variable-search query parser and variable filters
  (`client/packages/ui/src/stores/useBindingsStore.ts`,
  functions `parseVariableQuery`, `fuzzySearchStrings`, `filterVariables`),
* the backend `RenderResult` shape and the preview "reroll" handler
  (`packages/backend/src/types.ts`, `PromptPreview.handleReroll`),
* a model of the WASM core engine (parser, renderer, fuzzy search) whose
  Rust sources are not part of the repository checkout; those definitions
  are modelled from the specification and from the doc comments of
  `promptgen_core.d.ts` and are marked `Modelled from the spec`.

Strings are embedded as `List Char` (Unicode scalar values), matching the
spec's convention that indices and spans are in scalar-value offsets.
-/

/-- Coerce a Lean string literal to the `List Char` representation used
throughout this development. -/
def str (s : String) : List Char := s.data

/-- The JavaScript whitespace class `\s` (the characters relevant to this
code base: ASCII whitespace, NBSP and BOM). Used both by the tokenizer's
regexes and by `String.prototype.trim`. -/
def jsWs (c : Char) : Bool :=
  c = ' ' || c = '\t' || c = '\n' || c = '\r' ||
  c = Char.ofNat 11 || c = Char.ofNat 12 || c = Char.ofNat 160 || c = Char.ofNat 0xFEFF

/-- JavaScript `String.prototype.trim`: drop leading and trailing
whitespace. -/
def jsTrim (l : List Char) : List Char :=
  ((l.dropWhile jsWs).reverse.dropWhile jsWs).reverse

/-- JavaScript `String.prototype.split(sep)` for a single-character
separator: the list of fields between occurrences of `sep`. -/
def splitFields (sep : Char) : List Char → List (List Char)
  | [] => [[]]
  | c :: cs =>
    if c = sep then [] :: splitFields sep cs
    else
      match splitFields sep cs with
      | [] => [[c]]
      | f :: fs => (c :: f) :: fs

/-! ## The syntax-highlighting tokenizer

Embedding of `tokenize` from
`client/packages/ui/src/components/TemplateEditor/highlighting.ts`.
CodeMirror feeds the tokenizer one line at a time through a `StringStream`;
the stream is a line of characters plus a current position, `sol()` holds
at position 0 and `eol()` at the line length.  Regex matches are anchored
at the current position and consume on success.
-/

/-- Token types returned by the tokenizer (`null` is `Option.none`). -/
inductive TokKind
  | comment
  | brace
  | punctuation
  | strTok
  | variableName
  | typeName
deriving DecidableEq, Repr

/-- The tokenizer state (`PromptgenState`). -/
structure TokState where
  inInlineOptions : Bool
  inSlot : Bool
deriving DecidableEq, Repr

/-- Result of one `tokenize` call: the token type, the new stream
position, and the updated state. -/
structure TokStep where
  kind : Option TokKind
  pos : Nat
  state : TokState
deriving DecidableEq, Repr

/-- Length of the run of characters satisfying `p` starting at `pos`. -/
def runWhile (p : Char → Bool) (line : List Char) (pos : Nat) : Nat :=
  ((line.drop pos).takeWhile p).length

/-- Length of the whitespace run starting at `pos` (the `\s+` part of the
tokenizer's comment regex). -/
def wsRun (line : List Char) (pos : Nat) : Nat :=
  runWhile jsWs line pos

/-- First character of a JavaScript identifier (`[a-zA-Z_]`). -/
def identStart (c : Char) : Bool :=
  (('a' ≤ c && c ≤ 'z') || ('A' ≤ c && c ≤ 'Z') || c = '_')

/-- Continuation character of a JavaScript identifier (`[a-zA-Z0-9_]`). -/
def identCont (c : Char) : Bool :=
  identStart c || ('0' ≤ c && c ≤ '9')

/-- Length consumed by the regex `[a-zA-Z_][a-zA-Z0-9_]*` at `pos`
(0 when it does not match). -/
def identRun (line : List Char) (pos : Nat) : Nat :=
  match line.drop pos with
  | [] => 0
  | c :: cs => if identStart c then 1 + (cs.takeWhile identCont).length else 0

/-- Whether the literal string `s` occurs at position `pos`
(`stream.match("…")`). -/
def matchesAt (line : List Char) (pos : Nat) (s : List Char) : Bool :=
  (line.drop pos).take s.length == s

/-- Final position of the scan loop for a quoted reference: after
`@"` the tokenizer consumes characters until it has consumed a closing
quote or reaches the end of the line. `pos` is the position just after
the opening quote. -/
def quoteScanEnd (line : List Char) (pos : Nat) : Nat :=
  match (line.drop pos).findIdx? (· == '"') with
  | some j => pos + j + 1
  | none => line.length

/-- Characters that terminate a plain-text run
(the regex `[^@{#\s]+`). -/
def plainChar (c : Char) : Bool :=
  !(c = '@' || c = '{' || c = '#' || jsWs c)

/-- Embedding of the `tokenize` function of the promptgen CodeMirror
language (`highlighting.ts`).  Branches follow the source order:
comments, slots `{{ }}`, inline options `{ | }`, references `@…`, plain
text, single-character fallback. -/
def tokenize (line : List Char) (pos : Nat) (st : TokState) : TokStep :=
  -- stream.sol() && stream.match(/^#.*/)
  if pos = 0 ∧ line.get? 0 = some '#' then ⟨some .comment, line.length, st⟩
  -- stream.match(/\s+#.*/)
  else if 0 < wsRun line pos ∧ line.get? (pos + wsRun line pos) = some '#' then
    ⟨some .comment, line.length, st⟩
  -- stream.match("{{")
  else if matchesAt line pos (str "\x7b\x7b") then ⟨some .brace, pos + 2, { st with inSlot := true }⟩
  else if st.inSlot then
    if matchesAt line pos (str "\x7d\x7d") then ⟨some .brace, pos + 2, { st with inSlot := false }⟩
    else if 0 < identRun line pos then ⟨some .variableName, pos + identRun line pos, st⟩
    else if 0 < wsRun line pos then ⟨none, pos + wsRun line pos, st⟩
    else ⟨none, pos + 1, st⟩
  else
    -- stream.match("{") consumes the brace before the peek for a second "{"
    let openBrace := line.get? pos = some '{'
    let pos1 := if openBrace then pos + 1 else pos
    if openBrace ∧ ¬ line.get? pos1 = some '{' then
      ⟨some .brace, pos1, { st with inInlineOptions := true }⟩
    else if st.inInlineOptions then
      if line.get? pos1 = some '}' then ⟨some .brace, pos1 + 1, { st with inInlineOptions := false }⟩
      else if line.get? pos1 = some '|' then ⟨some .punctuation, pos1 + 1, st⟩
      else if 0 < runWhile (fun c => !(c = '|' || c = '}')) line pos1 then
        ⟨some .strTok, pos1 + runWhile (fun c => !(c = '|' || c = '}')) line pos1, st⟩
      else ⟨none, pos1 + 1, st⟩
    else if line.get? pos1 = some '@' then
      if line.get? (pos1 + 1) = some '"' then ⟨some .typeName, quoteScanEnd line (pos1 + 2), st⟩
      else if 0 < identRun line (pos1 + 1) then
        ⟨some .typeName, pos1 + 1 + identRun line (pos1 + 1), st⟩
      else ⟨some .typeName, pos1 + 1, st⟩
    else if 0 < runWhile plainChar line pos1 then ⟨none, pos1 + runWhile plainChar line pos1, st⟩
    else ⟨none, pos1 + 1, st⟩

/-- `startState()` of the language definition. -/
def tokStartState : TokState := ⟨false, false⟩

/-- Run the tokenizer over a whole line, recording for each call the
token type and the consumed span, with `fuel` bounding the number of
calls.  `none` means the fuel ran out before the stream was exhausted. -/
def tokenizeRun : Nat → List Char → Nat → TokState → Option (List (Option TokKind × Nat × Nat))
  | 0, line, pos, _ => if line.length ≤ pos then some [] else none
  | fuel + 1, line, pos, st =>
    if line.length ≤ pos then some []
    else
      let step := tokenize line pos st
      (tokenizeRun fuel line step.pos step.state).map ((step.kind, pos, step.pos) :: ·)

/-- Tokenize a full line from the start state, with one unit of fuel per
character (enough because every call consumes at least one character). -/
def tokenizeLine (line : List Char) : Option (List (Option TokKind × Nat × Nat)) :=
  tokenizeRun line.length line 0 tokStartState

/-! ## The variable-search query parser

Embedding of `parseVariableQuery` from
`client/packages/ui/src/stores/useBindingsStore.ts`.
-/

/-- The `type` discriminator of `ParsedVariableQuery`. -/
inductive QType
  | options
  | groups
  | groupsWithOptions
deriving DecidableEq, Repr

/-- `ParsedVariableQuery` from `useBindingsStore.ts`. -/
structure ParsedVariableQuery where
  qtype : QType
  groupQuery : List Char
  optionQuery : List Char
deriving DecidableEq, Repr

/-- Embedding of `parseVariableQuery`: trims the query, classifies it as
an options search (no `@`), a group search (`@…` without `/`) or a
group-plus-option search (`@…/…`), where the `@…/…` form is split with
`split("/", 2)` so that at most the first two fields survive. -/
def parseVariableQuery (searchQuery : List Char) : ParsedVariableQuery :=
  let trimmed := jsTrim searchQuery
  if ¬ trimmed.head? = some '@' then
    ⟨.options, [], trimmed⟩
  else
    let afterAt := trimmed.drop 1
    if ¬ afterAt.contains '/' then
      ⟨.groups, afterAt, []⟩
    else
      let fields := (splitFields '/' afterAt).take 2
      let groupQuery := fields.getD 0 []
      let optionQuery := fields.getD 1 []
      if groupQuery = [] then ⟨.options, [], optionQuery⟩
      else ⟨.groupsWithOptions, groupQuery, optionQuery⟩

/-! ## The fuzzy matcher and the core search engine

The core engine is compiled Rust (`promptgen-core`, shipped to the client
only as WASM with the declaration file `promptgen_core.d.ts`); its sources
are not part of the repository checkout.  The definitions in this section
are therefore modelled from the specification (§4.6 of the spec and the
doc comments of `promptgen_core.d.ts`).
-/

/-- Modelled from the spec: case folding used by the case-insensitive
fuzzy matcher (spec §4.6 "normalize both strings to a single case
fold"). -/
def foldChar (c : Char) : Char := c.toLower

/-- Modelled from the spec: the leftmost-greedy subsequence embedding of
`query` into `cand`, returning the matched indices (offset by `i`), or
`none` when `query` is not a case-insensitive subsequence of `cand`. -/
def subseqIdx : List Char → Nat → List Char → Option (List Nat)
  | _, _, [] => some []
  | [], _, _ :: _ => none
  | c :: cs, i, q :: qs =>
    if foldChar c = foldChar q then (subseqIdx cs (i + 1) qs).map (i :: ·)
    else subseqIdx cs (i + 1) (q :: qs)

/-- A match position is at a word boundary: start of string or right
after a non-alphanumeric separator (spec §4.6). -/
def wordBoundary (cand : List Char) (i : Nat) : Bool :=
  decide (i = 0) ||
    (match cand.get? (i - 1) with
     | some c => !c.isAlphanum
     | none => true)

/-- Modelled from the spec: the §4.6 scoring walk over the matched
indices.  Rewards contiguous runs and word-boundary matches, penalises
gaps between consecutive matched characters; the precise formula is an
internal tuning detail per the spec's design notes. -/
def scoreGo (cand : List Char) : Option Nat → List Nat → Int
  | _, [] => 0
  | prev, i :: rest =>
    let contiguous : Int := match prev with
      | some p => if i = p + 1 then 2 else 0
      | none => 0
    let boundary : Int := if wordBoundary cand i then 3 else 0
    let gap : Int := match prev with
      | some p => Int.ofNat (i - p - 1)
      | none => 0
    1 + contiguous + boundary - gap + scoreGo cand (some i) rest

/-- Modelled from the spec: total score of a leftmost alignment. -/
def scoreOf (cand : List Char) (idxs : List Nat) : Int :=
  scoreGo cand none idxs

/-- Modelled from the spec: `score(candidate, query)` of §4.6 — `none`
when the query is empty or not a case-insensitive subsequence of the
candidate, otherwise the score together with the leftmost matched
indices. -/
def fuzzyMatch (cand query : List Char) : Option (Int × List Nat) :=
  if query = [] then none
  else (subseqIdx cand 0 query).map fun idxs => (scoreOf cand idxs, idxs)

/-- A group of the core workspace model: name, tags and ordered option
strings (spec §3; the WASM `GroupInput` carries name and options). -/
structure PromptGroup where
  name : List Char
  tags : List (List Char)
  options : List (List Char)
deriving DecidableEq, Repr

/-- A library of the core workspace model. -/
structure Library where
  id : List Char
  libName : List Char
  groups : List PromptGroup
deriving DecidableEq, Repr

/-- The immutable workspace value: its libraries in insertion order. -/
structure Workspace where
  libraries : List Library
deriving DecidableEq, Repr

/-- `GroupSearchResult` (mirrors `core-wasm/src/types.ts`). -/
structure GroupSearchResult where
  library_id : List Char
  library_name : List Char
  group_name : List Char
  options : List (List Char)
  score : Int
  match_indices : List Nat
deriving DecidableEq, Repr

/-- `OptionMatch` (mirrors `core-wasm/src/types.ts`). -/
structure OptionMatch where
  text : List Char
  score : Int
  match_indices : List Nat
deriving DecidableEq, Repr

/-- `OptionSearchResult` (mirrors `core-wasm/src/types.ts`; the source
field `matches` is spelled `matchesList` because `matches` is a reserved
word in Lean). -/
structure OptionSearchResult where
  library_id : List Char
  library_name : List Char
  group_name : List Char
  matchesList : List OptionMatch
deriving DecidableEq, Repr

/-- `SearchResult` (mirrors `core-wasm/src/types.ts`): either group
results or option results. -/
inductive SearchResult
  | Groups (results : List GroupSearchResult)
  | Options (results : List OptionSearchResult)
deriving DecidableEq, Repr

/-- All groups of the workspace, paired with their library, in default
(library insertion, then in-library) order. -/
def allGroups (ws : Workspace) : List (Library × PromptGroup) :=
  ws.libraries.flatMap fun lib => lib.groups.map fun g => (lib, g)

/-- Sort key for group search results: ascending in this key means score
descending, ties broken by library id then group name ascending. -/
def gsKey (r : GroupSearchResult) : Lex (Int × Lex (List Char × List Char)) :=
  toLex (-r.score, toLex (r.library_id, r.group_name))

/-- The ordering relation on group search results used by the core
search: score descending, ties by library id then group name. -/
def gsLE (a b : GroupSearchResult) : Prop :=
  gsKey a ≤ gsKey b

instance : DecidableRel gsLE :=
  fun a b => inferInstanceAs (Decidable (gsKey a ≤ gsKey b))

instance : IsTotal GroupSearchResult gsLE :=
  ⟨fun a b => le_total (gsKey a) (gsKey b)⟩

instance : IsTrans GroupSearchResult gsLE :=
  ⟨fun _ _ _ hab hbc => le_trans hab hbc⟩

/-- Option matches are ordered by score descending (spec §4.6; ties keep
the original option order because the sort below is stable). -/
def omLE (a b : OptionMatch) : Prop :=
  b.score ≤ a.score

instance : DecidableRel omLE :=
  fun a b => inferInstanceAs (Decidable (b.score ≤ a.score))

instance : IsTotal OptionMatch omLE :=
  ⟨fun a b => le_total b.score a.score⟩

instance : IsTrans OptionMatch omLE :=
  ⟨fun _ _ _ hab hbc => le_trans hbc hab⟩

/-- Modelled from the spec: the scored group results for a non-empty
query — every group whose name the query fuzzy-matches
(case-insensitively), in default workspace order, before sorting. -/
def scoredGroups (ws : Workspace) (query : List Char) : List GroupSearchResult :=
  (allGroups ws).filterMap fun p =>
    (fuzzyMatch p.2.name query).map fun si =>
      ⟨p.1.id, p.1.libName, p.2.name, p.2.options, si.1, si.2⟩

/-- Modelled from the spec: `WasmWorkspace.searchGroups` — all groups
(unscored, default order) for the empty query, otherwise the scored
matches sorted by score descending with ties broken by library id then
group name. -/
def searchGroups (ws : Workspace) (query : List Char) : List GroupSearchResult :=
  if query = [] then
    (allGroups ws).map fun p => ⟨p.1.id, p.1.libName, p.2.name, p.2.options, 0, []⟩
  else
    List.insertionSort gsLE (scoredGroups ws query)

/-- Modelled from the spec: option search over a given list of
(library, group) pairs — for the empty query every option of every
group, unscored, in original order; otherwise one result per group with
at least one matching option, its matches sorted by score descending. -/
def searchOptionsIn (pairs : List (Library × PromptGroup)) (query : List Char) :
    List OptionSearchResult :=
  if query = [] then
    pairs.map fun p => ⟨p.1.id, p.1.libName, p.2.name, p.2.options.map fun o => ⟨o, 0, []⟩⟩
  else
    pairs.filterMap fun p =>
      let ms := p.2.options.filterMap fun o =>
        (fuzzyMatch o query).map fun si => (⟨o, si.1, si.2⟩ : OptionMatch)
      if ms.isEmpty then none else some ⟨p.1.id, p.1.libName, p.2.name, List.insertionSort omLE ms⟩

/-- Modelled from the spec: `WasmWorkspace.searchOptions(query,
group_filter)` — the option search over all groups, or over the groups
named by the filter. -/
def searchOptions (ws : Workspace) (query : List Char) (groupFilter : Option (List Char)) :
    List OptionSearchResult :=
  searchOptionsIn
    ((allGroups ws).filter fun p =>
      match groupFilter with
      | none => true
      | some n => p.2.name == n)
    query

/-- Modelled from the spec: the groups selected by the group part of an
`@group/option` query — all groups when it is empty, else those whose
name fuzzy-matches it. -/
def selectedGroups (ws : Workspace) (groupQuery : List Char) : List (Library × PromptGroup) :=
  if groupQuery = [] then allGroups ws
  else (allGroups ws).filter fun p => (fuzzyMatch p.2.name groupQuery).isSome

/-- Modelled from the spec: `WasmWorkspace.search` — the unified search
with query syntax `@group`, `@group/option`, `@/option`, or plain text
(plain text and `@…` without `/` search groups; a query containing `/`
after the `@` searches options within the selected groups). -/
def search (ws : Workspace) (query : List Char) : SearchResult :=
  if query = [] then .Groups (searchGroups ws [])
  else if query.head? = some '@' then
    let after := query.drop 1
    if ¬ after.contains '/' then .Groups (searchGroups ws after)
    else
      let gq := after.takeWhile (· != '/')
      let oq := (after.dropWhile (· != '/')).drop 1
      .Options (searchOptionsIn (selectedGroups ws gq) oq)
  else .Groups (searchGroups ws query)

/-! ## The UI variable filters

Embeddings of `fuzzySearchStrings` and both revisions of
`filterVariables` from `useBindingsStore.ts`.  The first revision scores
with the external Fuse.js library, the second with the WASM core search:
for the external pieces (Fuse.js, the WASM engine) the matcher of §4.6
stands in; the surrounding control flow is translated from the source.
-/

/-- `FilteredVariable` from `useBindingsStore.ts` (`matchingOptionIndices`
is a JS `Set` built by insertion; it is embedded as the list of its
elements in insertion order, without duplicates). -/
structure FilteredVariable where
  name : List Char
  options : List (List Char)
  matchingOptionIndices : List Nat
  showAllOptions : Bool
deriving DecidableEq, Repr

/-- Ordering of `Object.entries(variables)` sorted with
`a.localeCompare(b)` on the names (embedded as lexicographic character
order). -/
def entLE (a b : List Char × List (List Char)) : Prop :=
  a.1 ≤ b.1

instance : DecidableRel entLE :=
  fun a b => inferInstanceAs (Decidable (a.1 ≤ b.1))

instance : IsTotal (List Char × List (List Char)) entLE :=
  ⟨fun a b => le_total a.1 b.1⟩

instance : IsTrans (List Char × List (List Char)) entLE :=
  ⟨fun _ _ _ hab hbc => le_trans hab hbc⟩

/-- `fuzzySearchStrings(items, query)`: the set of indices of items the
query matches — empty for the empty query.  Modelled from the spec for
the matching itself: the external Fuse.js matcher is replaced by the
§4.6 subsequence matcher. -/
def fuzzySearchStrings (items : List (List Char)) (query : List Char) : List Nat :=
  if query = [] then []
  else items.enum.filterMap fun p =>
    if (fuzzyMatch p.2 query).isSome then some p.1 else none

/-- The first revision of `filterVariables`, parameterized by the
index-set search function it calls (`fuzzySearchStrings` in the source):
sorts the entries by name, returns everything for the empty query, and
otherwise filters per the query type, keeping an option-filtered group
only when its matching-index set is non-empty. -/
def filterVariablesWith (fss : List (List Char) → List Char → List Nat)
    (vars : List (List Char × List (List Char))) (query : ParsedVariableQuery) :
    List FilteredVariable :=
  let entries := List.insertionSort entLE vars
  if query.groupQuery = [] ∧ query.optionQuery = [] then
    entries.map fun e => ⟨e.1, e.2, [], true⟩
  else
    match query.qtype with
    | .options =>
      entries.filterMap fun e =>
        let m := fss e.2 query.optionQuery
        if m.isEmpty then none else some ⟨e.1, e.2, m, false⟩
    | .groups =>
      let mg := fss (entries.map (·.1)) query.groupQuery
      (entries.enum.filter fun p => mg.contains p.1).map fun p => ⟨p.2.1, p.2.2, [], true⟩
    | .groupsWithOptions =>
      let mg := fss (entries.map (·.1)) query.groupQuery
      entries.enum.filterMap fun p =>
        if mg.contains p.1 then
          if query.optionQuery = [] then some ⟨p.2.1, p.2.2, [], true⟩
          else
            let m := fss p.2.2 query.optionQuery
            if m.isEmpty then none else some ⟨p.2.1, p.2.2, m, false⟩
        else none

/-- The first revision of `filterVariables` as shipped: instantiated
with `fuzzySearchStrings`. -/
def filterVariables (vars : List (List Char × List (List Char)))
    (query : ParsedVariableQuery) : List FilteredVariable :=
  filterVariablesWith fuzzySearchStrings vars query

/-- `createSearchWorkspace`: a one-library workspace built from the
variables record (`WasmWorkspaceBuilder` with library id `search`). -/
def createSearchWorkspace (vars : List (List Char × List (List Char))) : Workspace :=
  ⟨[⟨str "search", str "Search", vars.map fun e => ⟨e.1, [], e.2⟩⟩]⟩

/-- JS record lookup `variables[name] || []`. -/
def jsLookup (vars : List (List Char × List (List Char))) (n : List Char) :
    List (List Char) :=
  ((vars.find? fun e => e.1 == n).map (·.2)).getD []

/-- The index set built from option-match texts: for each match text,
`options.indexOf(text)` when found, collected into a `Set` (dedup keeps
insertion order). -/
def matchIndexSet (options : List (List Char)) (texts : List (List Char)) : List Nat :=
  (texts.filterMap fun t =>
    let i := options.indexOf t
    if i < options.length then some i else none).dedup

/-- The second revision of `filterVariables`, which searches through the
WASM core: builds a temporary one-library workspace from the variables
and dispatches to `searchOptions`/`searchGroups`, mapping match texts
back to option indices via `indexOf`. -/
def filterVariablesWasm (vars : List (List Char × List (List Char)))
    (query : ParsedVariableQuery) : List FilteredVariable :=
  let entries := List.insertionSort entLE vars
  if query.groupQuery = [] ∧ query.optionQuery = [] then
    entries.map fun e => ⟨e.1, e.2, [], true⟩
  else
    let ws := createSearchWorkspace vars
    match query.qtype with
    | .options =>
      (searchOptions ws query.optionQuery none).map fun r =>
        let options := jsLookup vars r.group_name
        ⟨r.group_name, options, matchIndexSet options (r.matchesList.map (·.text)), false⟩
    | .groups =>
      (searchGroups ws query.groupQuery).map fun r => ⟨r.group_name, r.options, [], true⟩
    | .groupsWithOptions =>
      let groupResults := searchGroups ws query.groupQuery
      if query.optionQuery = [] then
        groupResults.map fun r => ⟨r.group_name, r.options, [], true⟩
      else
        groupResults.filterMap fun g =>
          let optionResults := searchOptions ws query.optionQuery (some g.group_name)
          match optionResults.head? with
          | none => none
          | some r0 =>
            if r0.matchesList.isEmpty then none
            else
              let options := jsLookup vars g.group_name
              some ⟨g.group_name, options, matchIndexSet options (r0.matchesList.map (·.text)), false⟩

/-! ## The core template parser and renderer

Modelled from the spec: the parser (§4.1), resolver (§4.3) and renderer
(§4.4) live in the Rust `promptgen-core` crate, which the repository
checkout only carries as a WASM declaration file.  The definitions below
follow the specification's grammar, resolution and rendering algorithm.
-/

/-- A source span in scalar-value offsets (field `end` of the source
`Span` is spelled `stop`: `end` is reserved in Lean). -/
structure Span where
  start : Nat
  stop : Nat
deriving DecidableEq, Repr

/-- Severity of a diagnostic. -/
inductive Severity
  | warning
  | error
deriving DecidableEq, Repr

/-- A parse/validation diagnostic: severity, message, span. -/
structure Diagnostic where
  severity : Severity
  message : List Char
  span : Span
deriving DecidableEq, Repr

/-- Tag-expression operators: `+` unions candidate sets, `-` removes. -/
inductive TagOp
  | plus
  | minus
deriving DecidableEq, Repr

/-- A tag expression `T₁ op T₂ op …`, associated left-to-right. -/
structure TagExpr where
  first : List Char
  rest : List (TagOp × List Char)
deriving DecidableEq, Repr

/-- Operand of an expression block: a quoted literal or a tag
reference. -/
inductive BlockOperand
  | lit (s : List Char)
  | tagOperand (t : List Char)
deriving DecidableEq, Repr

/-- A pipeline stage: name plus parenthesized literal arguments. -/
structure Stage where
  stageName : List Char
  args : List (List Char)
deriving DecidableEq, Repr

/-- Modelled from the spec: the AST node variants of §3, each carrying
its source span. -/
inductive AstNode
  | text (s : List Char) (sp : Span)
  | comment (s : List Char) (sp : Span)
  | slot (slotName : List Char) (sp : Span)
  | inlineOptions (alts : List (List Char)) (sp : Span)
  | groupRef (lib : Option (List Char)) (expr : TagExpr) (sp : Span)
  | exprBlock (operand : BlockOperand) (stages : List Stage) (sp : Span)
deriving DecidableEq, Repr

/-- `ParseResult`: success flag, best-effort AST, diagnostics. -/
structure ParseResult where
  success : Bool
  ast : List AstNode
  errors : List Diagnostic
deriving DecidableEq, Repr

/-- Split a tag-expression body at `+`/`-` operators, left-to-right;
the accumulator carries the current (reversed) tag text. -/
def tagSplitGo : List Char → List Char → List Char × List (TagOp × List Char)
  | [], acc => (acc.reverse, [])
  | c :: cs, acc =>
    if c = '+' ∨ c = '-' then
      let rec2 := tagSplitGo cs []
      (acc.reverse, ((if c = '+' then TagOp.plus else TagOp.minus), rec2.1) :: rec2.2)
    else tagSplitGo cs (c :: acc)

/-- Modelled from the spec: parse a `{…}` body as a tag expression,
whitespace around each tag being insignificant. -/
def parseTagExpr (content : List Char) : TagExpr :=
  let p := tagSplitGo content []
  ⟨jsTrim p.1, p.2.map fun q => (q.1, jsTrim q.2)⟩

/-- First index at which the two-character sequence `a b` occurs. -/
def findPairIdx (a b : Char) : List Char → Option Nat
  | [] => none
  | [_] => none
  | x :: y :: rest =>
    if x = a ∧ y = b then some 0 else (findPairIdx a b (y :: rest)).map (· + 1)

/-- Strip one pair of surrounding double quotes, when present. -/
def stripQuotes (l : List Char) : List Char :=
  match l with
  | '"' :: rest => if rest.getLast? = some '"' then rest.dropLast else l
  | _ => l

/-- Modelled from the spec: parse one pipeline segment into a stage name
plus parenthesized literal arguments. -/
def parseStage (piece : List Char) : Stage :=
  let t := jsTrim piece
  let nm := t.takeWhile (· != '(')
  let after := t.dropWhile (· != '(')
  if after.isEmpty then ⟨jsTrim nm, []⟩
  else
    let inner := (after.drop 1).takeWhile (· != ')')
    ⟨jsTrim nm, (splitFields ',' inner).map fun arg => stripQuotes (jsTrim arg)⟩

/-- The pipeline stages the engine knows (spec §4.1: unknown stage names
are a parse error; `assign` is the stage the spec specifies). -/
def knownStages : List (List Char) :=
  [str "assign"]

/-- Modelled from the spec: parse an expression-block operand — a quoted
literal, else a tag reference. -/
def parseBlockOperand (piece : List Char) : BlockOperand :=
  let t := jsTrim piece
  match t.head? with
  | some '"' => .lit (stripQuotes t)
  | _ => .tagOperand t

/-- The characters between positions `a` (inclusive) and `b`
(exclusive). -/
def seg (src : List Char) (a b : Nat) : List Char :=
  (src.drop a).take (b - a)

/-- Modelled from the spec: one step of the greedy-leftmost scanner of
§4.1.  At the current position it attempts, in order: comment, slot,
expression block, braces (inline options / tag expression), `@`
reference, plain text; it returns the produced nodes, diagnostics, and
the new position.  Ambiguous `@` prefixes (followed by whitespace, or
dangling) degrade to a text literal plus a warning-severity diagnostic
rather than a hard error. -/
def scanToken (src : List Char) (pos : Nat) : List AstNode × List Diagnostic × Nat :=
  match src.get? pos with
  | none => ([], [], src.length)
  | some c =>
    if c = '#' then
      let e := pos + runWhile (· != '\n') src pos
      ([.comment (seg src pos e) ⟨pos, e⟩], [], e)
    else if matchesAt src pos (str "\x7b\x7b") then
      let i := pos + 2
      let j := i + wsRun src i
      let n := identRun src j
      let k := j + n
      let m := k + wsRun src k
      if 0 < n ∧ matchesAt src m (str "\x7d\x7d") then
        ([.slot (seg src j k) ⟨pos, m + 2⟩], [], m + 2)
      else ([], [⟨.error, str "unclosed slot", ⟨pos, pos + 2⟩⟩], pos + 2)
    else if matchesAt src pos (str "[[") then
      match findPairIdx ']' ']' (src.drop (pos + 2)) with
      | none => ([], [⟨.error, str "unclosed expression block", ⟨pos, pos + 2⟩⟩], pos + 2)
      | some j =>
        let content := (src.drop (pos + 2)).take j
        let e := pos + 2 + j + 2
        let segments := splitFields '|' content
        let operand := parseBlockOperand (segments.headD [])
        let stages := (segments.drop 1).map parseStage
        let unknown := stages.filter fun s => !(knownStages.contains s.stageName)
        ([.exprBlock operand stages ⟨pos, e⟩],
         unknown.map fun s => ⟨.error, str "unknown stage " ++ s.stageName, ⟨pos, e⟩⟩, e)
    else if c = '{' then
      let rest := src.drop (pos + 1)
      match rest.findIdx? (· == '}') with
      | none =>
        ([.text ['{'] ⟨pos, pos + 1⟩], [⟨.error, str "unclosed brace", ⟨pos, pos + 1⟩⟩], pos + 1)
      | some j =>
        let content := rest.take j
        let e := pos + 1 + j + 1
        if content.contains '|' then
          let alts := splitFields '|' content
          ([.inlineOptions alts ⟨pos, e⟩],
           if alts.contains [] then [⟨.error, str "empty alternative", ⟨pos, e⟩⟩] else [], e)
        else ([.groupRef none (parseTagExpr content) ⟨pos, e⟩], [], e)
    else if c = '@' then
      match src.get? (pos + 1) with
      | none =>
        ([.text ['@'] ⟨pos, pos + 1⟩],
         [⟨.warning, str "dangling reference marker", ⟨pos, pos + 1⟩⟩], pos + 1)
      | some d =>
        if jsWs d then
          ([.text ['@'] ⟨pos, pos + 1⟩],
           [⟨.warning, str "ambiguous reference marker", ⟨pos, pos + 1⟩⟩], pos + 1)
        else if d = '"' then
          let rest := src.drop (pos + 2)
          match rest.findIdx? (· == '"') with
          | none =>
            ([.text (seg src pos src.length) ⟨pos, src.length⟩],
             [⟨.error, str "unclosed quoted reference", ⟨pos, pos + 2⟩⟩], src.length)
          | some j =>
            let inner := rest.take j
            let e := pos + 2 + j + 1
            if inner.contains ':' then
              ([.groupRef (some (inner.takeWhile (· != ':')))
                  ⟨(inner.dropWhile (· != ':')).drop 1, []⟩ ⟨pos, e⟩], [], e)
            else ([.groupRef none ⟨inner, []⟩ ⟨pos, e⟩], [], e)
        else
          let n := identRun src (pos + 1)
          if 0 < n then
            ([.groupRef none ⟨seg src (pos + 1) (pos + 1 + n), []⟩ ⟨pos, pos + 1 + n⟩],
             [], pos + 1 + n)
          else
            ([.text ['@'] ⟨pos, pos + 1⟩],
             [⟨.warning, str "ambiguous reference marker", ⟨pos, pos + 1⟩⟩], pos + 1)
    else
      let n := runWhile (fun ch => !(ch = '#' || ch = '{' || ch = '@' || ch = '[')) src pos
      if 0 < n then ([.text (seg src pos (pos + n)) ⟨pos, pos + n⟩], [], pos + n)
      else ([.text [c] ⟨pos, pos + 1⟩], [], pos + 1)

/-- Drive the scanner over the whole source, with fuel bounding the
number of scan steps (one unit per source character suffices because
every step consumes at least one character). -/
def parseGo : Nat → List Char → Nat → List AstNode → List Diagnostic →
    List AstNode × List Diagnostic
  | 0, _, _, accN, accD => (accN.reverse, accD.reverse)
  | fuel + 1, src, pos, accN, accD =>
    if src.length ≤ pos then (accN.reverse, accD.reverse)
    else
      let step := scanToken src pos
      parseGo fuel src step.2.2 (step.1.reverse ++ accN) (step.2.1.reverse ++ accD)

/-- Modelled from the spec: `parse(source)` — never fails catastrophically,
returns a best-effort AST plus diagnostics; `success` holds when no
error-severity diagnostic was produced (warnings do not fail a parse). -/
def parse (src : List Char) : ParseResult :=
  let p := parseGo (src.length + 1) src 0 [] []
  ⟨p.2.all fun d => d.severity == Severity.warning, p.1, p.2⟩

/-- Render-time failures (spec §7 taxonomy; `emptyOptionPool` is the
"empty group always fails to render" diagnostic of §3). -/
inductive RenderErr
  | unknownReference (t : List Char)
  | unknownLibrary (l : List Char)
  | missingSlotValue (n : List Char)
  | stageError (s : List Char)
  | emptyOptionPool
deriving DecidableEq, Repr

/-- One entry of the chosen-options trace. -/
structure Chosen where
  span : Span
  text : List Char
deriving DecidableEq, Repr

/-- A successful render: output text plus the ordered chosen-options
trace. -/
structure RenderOk where
  output : List Char
  chosen : List Chosen
deriving DecidableEq, Repr

/-- Modelled from the spec: one mixing round of the counter-based
generator (64-bit LCG step plus xorshift, arithmetic mod 2^64). -/
def mix64 (x : Nat) : Nat :=
  let a := (x * 6364136223846793005 + 1442695040888963407) % 2 ^ 64
  (a ^^^ a / 2 ^ 33) % 2 ^ 64

/-- Modelled from the spec: the counter-based random stream — seeded
once, advanced once per draw; draw `ctr` is a pure function of `(seed,
ctr)`, so identical walk order and seed give identical draws on any
platform. -/
def prngAt (seed ctr : Nat) : Nat :=
  mix64 ((seed + ctr * 11400714819323198485) % 2 ^ 64)

/-- Identity of a candidate group: (library id, group name). -/
def groupKey (p : Library × PromptGroup) : List Char × List Char :=
  (p.1.id, p.2.name)

/-- Whether a group answers to a base tag: its name equals the tag or
its tag set contains it (name and tags share one namespace, §4.3). -/
def baseMatches (tag : List Char) (p : Library × PromptGroup) : Bool :=
  p.2.name == tag || p.2.tags.contains tag

/-- Modelled from the spec: resolve a base tag — against one library
when qualified (unknown id is `UnknownLibrary`), else across the whole
workspace; zero candidates is `UnknownReference`. -/
def resolveBase (ws : Workspace) (libQual : Option (List Char)) (tag : List Char) :
    Except RenderErr (List (Library × PromptGroup)) :=
  match libQual with
  | some lid =>
    match ws.libraries.find? (fun l => l.id == lid) with
    | none => .error (.unknownLibrary lid)
    | some l =>
      let cands := (l.groups.map fun g => (l, g)).filter (baseMatches tag)
      if cands.isEmpty then .error (.unknownReference tag) else .ok cands
  | none =>
    let cands := (allGroups ws).filter (baseMatches tag)
    if cands.isEmpty then .error (.unknownReference tag) else .ok cands

/-- Set union of candidate lists (identity by (library id, group name),
duplicates counted once, left operand's order first). -/
def unionCands (a b : List (Library × PromptGroup)) : List (Library × PromptGroup) :=
  a ++ b.filter fun p => !((a.map groupKey).contains (groupKey p))

/-- Set subtraction of candidate lists: drop from `a` every group also
in `b`. -/
def minusCands (a b : List (Library × PromptGroup)) : List (Library × PromptGroup) :=
  a.filter fun p => !((b.map groupKey).contains (groupKey p))

/-- Modelled from the spec: resolve a whole tag expression left-to-right
with `+` as union and `-` as subtraction (§4.3). -/
def resolveExpr (ws : Workspace) (libQual : Option (List Char)) (e : TagExpr) :
    Except RenderErr (List (Library × PromptGroup)) := do
  let base ← resolveBase ws libQual e.first
  e.rest.foldlM
    (fun acc op => do
      let rhs ← resolveBase ws libQual op.2
      match op.1 with
      | TagOp.plus => pure (unionCands acc rhs)
      | TagOp.minus => pure (minusCands acc rhs))
    base

/-- Mutable state threaded through a render: the draw counter, the
in-render binding table written by `assign`, the output accumulator and
the chosen-options trace. -/
structure RenderSt where
  ctr : Nat
  bindings : List (List Char × List Char)
  out : List Char
  chosenAcc : List Chosen
deriving DecidableEq, Repr

/-- Modelled from the spec: draw one entry uniformly from a pool using
the seeded stream, advancing the counter once and appending to the
trace; an empty pool fails the render. -/
def drawFrom (seed : Nat) (sp : Span) (pool : List (List Char)) (st : RenderSt) :
    Except RenderErr (List Char × RenderSt) :=
  if pool.length = 0 then .error .emptyOptionPool
  else
    let t := pool.getD (prngAt seed st.ctr % pool.length) []
    .ok (t, { st with ctr := st.ctr + 1, chosenAcc := st.chosenAcc ++ [⟨sp, t⟩] })

/-- First-match lookup in an association list (JS object / Map). -/
def lookupVal (l : List (List Char × List Char)) (n : List Char) : Option (List Char) :=
  (l.find? fun p => p.1 == n).map (·.2)

/-- Modelled from the spec: apply pipeline stages in order; `assign`
binds the value for later slot lookups, any other stage fails with
`StageError`. -/
def applyStages (st : RenderSt) (value : List Char) :
    List Stage → Except RenderErr (List Char × RenderSt)
  | [] => .ok (value, st)
  | s :: rest =>
    if s.stageName = str "assign" then
      match s.args with
      | [n] => applyStages { st with bindings := (n, value) :: st.bindings } value rest
      | _ => .error (.stageError s.stageName)
    else .error (.stageError s.stageName)

/-- Modelled from the spec: render a single AST node (§4.4 walk cases). -/
def renderNode (ws : Workspace) (seed : Nat) (slotValues : List (List Char × List Char))
    (st : RenderSt) : AstNode → Except RenderErr RenderSt
  | .text s _ => .ok { st with out := st.out ++ s }
  | .comment _ _ => .ok st
  | .slot n _ =>
    match lookupVal st.bindings n with
    | some v => .ok { st with out := st.out ++ v }
    | none =>
      match lookupVal slotValues n with
      | some v => .ok { st with out := st.out ++ v }
      | none => .error (.missingSlotValue n)
  | .inlineOptions alts sp =>
    (drawFrom seed sp alts st).map fun p => { p.2 with out := p.2.out ++ p.1 }
  | .groupRef libQual e sp => do
    let cands ← resolveExpr ws libQual e
    let drawn ← drawFrom seed sp (cands.flatMap fun p => p.2.options) st
    .ok { drawn.2 with out := drawn.2.out ++ drawn.1 }
  | .exprBlock operand stages sp => do
    let opVal ←
      match operand with
      | .lit s => pure (s, st)
      | .tagOperand t => do
        let cands ← resolveExpr ws none ⟨t, []⟩
        drawFrom seed sp (cands.flatMap fun p => p.2.options) st
    let staged ← applyStages opVal.2 opVal.1 stages
    .ok { staged.2 with out := staged.2.out ++ staged.1 }

/-- Walk the AST depth-first in document order, threading the state. -/
def renderNodes (ws : Workspace) (seed : Nat) (slotValues : List (List Char × List Char)) :
    List AstNode → RenderSt → Except RenderErr RenderSt
  | [], st => .ok st
  | n :: rest, st => do
    let st' ← renderNode ws seed slotValues st n
    renderNodes ws seed slotValues rest st'

/-- Modelled from the spec: `render(source, slot_values, seed?)` of
§4.4.  The deterministic seeded stream is seeded once at the start; when
the caller omits the seed, a fresh one is taken from the environment
(`entropy` stands for that platform randomness), which is the only use
of `entropy`.  All-or-nothing: any failure discards partial output. -/
def render (ws : Workspace) (src : List Char) (slotValues : List (List Char × List Char))
    (seedOpt : Option Nat) (entropy : Nat) : Except RenderErr RenderOk :=
  let pr := parse src
  let seed := seedOpt.getD entropy
  (renderNodes ws seed slotValues pr.ast ⟨0, [], [], []⟩).map fun st => ⟨st.out, st.chosenAcc⟩

/-! ## The backend render-result shape and the reroll handler -/

/-- `RenderResult` from `packages/backend/src/types.ts`: success flag,
optional output, optional error text — these three fields are all a
caller gets back. -/
structure RenderResult where
  success : Bool
  output : Option (List Char)
  error : Option (List Char)
deriving DecidableEq, Repr

/-- Human-readable message for a render failure. -/
def errText : RenderErr → List Char
  | .unknownReference t => str "unknown reference " ++ t
  | .unknownLibrary l => str "unknown library " ++ l
  | .missingSlotValue n => str "missing slot value " ++ n
  | .stageError s => str "stage error " ++ s
  | .emptyOptionPool => str "empty option pool"

/-- The backend `renderTemplate` result as the UI receives it: the core
render outcome narrowed to the three `RenderResult` fields (no seed and
no trace survive the boundary). -/
def renderTemplateResult (ws : Workspace) (src : List Char)
    (slotValues : List (List Char × List Char)) (seedOpt : Option Nat) (entropy : Nat) :
    RenderResult :=
  match render ws src slotValues seedOpt entropy with
  | .ok r => ⟨true, some r.output, none⟩
  | .error e => ⟨false, none, some (errText e)⟩

/-- `PromptPreview.handleReroll` picks the seed it passes to render as
`Math.floor(Math.random() * 1000000)`; `Math.random()` is modelled as
the dyadic rational `k / 2^53` (`0 ≤ k < 2^53`), exactly the values a
JS engine produces, so the floor is `k * 1000000 / 2^53` in integer
arithmetic. -/
def rerollSeed (k : Nat) : Nat :=
  k * 1000000 / 2 ^ 53

/-- A group has at least one option the option query fuzzy-matches
(the membership condition of the spec's `@group/option` search). -/
def groupHasOptionMatch (oq : List Char) (p : Library × PromptGroup) : Bool :=
  p.2.options.any fun o => (fuzzyMatch o oq).isSome

/-! ## Concrete material used by the witnesses -/

/-- The Scenario-A workspace of the spec (§8): one library with groups
`Hair` and `Eyes`. -/
def wsDemo : Workspace :=
  ⟨[⟨str "lib1", str "Library 1",
     [⟨str "Hair", [str "appearance"], [str "blonde hair", str "red hair"]⟩,
      ⟨str "Eyes", [], [str "blue eyes", str "green eyes"]⟩]⟩]⟩

/-- A small variables record for exercising the filters. -/
def varsDemo : List (List Char × List (List Char)) :=
  [(str "Hair", [str "blonde", str "red"])]

/-! # Theorems -/

/-- C1: For every fixed tuple of source text, workspace, slot-value
mapping, and seed, any two calls to render return byte-identical output
text and an identical ordered chosen-options list.  Two calls are
modelled by rendering with two arbitrary environment-entropy values:
with the seed fixed, the entropy (the only stand-in for platform or
call-to-call variation) cannot influence the result, so output and
trace coincide. -/
theorem render_deterministic (ws : Workspace) (src : List Char)
    (slotValues : List (List Char × List Char)) (seedVal : Nat) (entropy1 entropy2 : Nat) :
    render ws src slotValues (some seedVal) entropy1 =
      render ws src slotValues (some seedVal) entropy2 := rfl

/-- C3 counterexample: the render result does not surface the seed that
was used — two renders of the same template with different seeds return
literally identical `RenderResult` values (success flag, output, error
are the only fields), so no caller can read a "last used seed" back out
of the result. -/
theorem renderResult_conceals_seed :
    renderTemplateResult ⟨[]⟩ (str "hello") [] (some 0) 0 =
      renderTemplateResult ⟨[]⟩ (str "hello") [] (some 1) 0 := by decide

/-- C3 amended: the backend `RenderResult` carries no seed, and the
reroll feature does not read one from the result: `handleReroll` draws
a fresh client-side seed `Math.floor(Math.random() * 1000000)` — always
below 1000000 — and passes it to render explicitly; re-rendering with
that same explicit seed reproduces the output exactly, independent of
any hidden state. -/
theorem reroll_generates_fresh_seed (k : Nat) (hk : k < 2 ^ 53) :
    rerollSeed k < 1000000 ∧
      ∀ (ws : Workspace) (src : List Char) (slotValues : List (List Char × List Char))
        (entropy1 entropy2 : Nat),
        render ws src slotValues (some (rerollSeed k)) entropy1 =
          render ws src slotValues (some (rerollSeed k)) entropy2 := by
  constructor
  · have h53 : (2 : Nat) ^ 53 = 9007199254740992 := by norm_num
    simp only [rerollSeed, h53] at *
    omega
  · intro ws src slotValues entropy1 entropy2
    rfl

/-- Witness for the C3 amended theorem at `k = 2^52`
(`Math.random() = 0.5`). -/
theorem reroll_generates_fresh_seed_witness :
    rerollSeed 4503599627370496 < 1000000 ∧
      render wsDemo (str "\x7bHair\x7d") [] (some (rerollSeed 4503599627370496)) 0 =
        render wsDemo (str "\x7bHair\x7d") [] (some (rerollSeed 4503599627370496)) 99 :=
  ⟨(reroll_generates_fresh_seed 4503599627370496 (by norm_num)).1,
   (reroll_generates_fresh_seed 4503599627370496 (by norm_num)).2 wsDemo (str "\x7bHair\x7d") [] 0 99⟩

/-- C2: a non-empty search query that does not start with `@` is a group
search: the result is the `Groups` variant, its entries are exactly the
groups whose name the query fuzzy-matches case-insensitively
(`scoredGroups`), sorted by score descending with ties broken by library
id then group name ascending (`gsLE`). -/
theorem search_plain_query_groups (ws : Workspace) (q : List Char)
    (hne : q ≠ []) (hat : ¬ q.head? = some '@') :
    ∃ rs, search ws q = SearchResult.Groups rs ∧
      rs.Perm (scoredGroups ws q) ∧ rs.Sorted gsLE := by
  refine ⟨List.insertionSort gsLE (scoredGroups ws q), ?_,
    List.perm_insertionSort gsLE (scoredGroups ws q),
    List.sorted_insertionSort gsLE (scoredGroups ws q)⟩
  simp [search, searchGroups, hne, hat]

/-- Witness for C2 on the Scenario-A workspace with query `ha`. -/
theorem search_plain_query_groups_witness :
    ∃ rs, search wsDemo (str "ha") = SearchResult.Groups rs ∧
      rs.Perm (scoredGroups wsDemo (str "ha")) ∧ rs.Sorted gsLE :=
  search_plain_query_groups wsDemo (str "ha") (by decide) (by decide)

/-- An index answered by `List.get?` is inside the list. -/
theorem get?_lt_length {l : List Char} {n : Nat} {c : Char} (h : l.get? n = some c) :
    n < l.length :=
  (List.get?_eq_some.mp h).1

/-- `head?` after `drop` is `get?`. -/
theorem head?_drop_eq (l : List Char) (n : Nat) : (l.drop n).head? = l.get? n := by
  rw [List.head?_drop, List.get?_eq_getElem?]

/-- A positive whitespace run starts with a whitespace character. -/
theorem wsRun_head {line : List Char} {pos : Nat} (h : 0 < wsRun line pos) :
    ∃ c, line.get? pos = some c ∧ jsWs c = true := by
  unfold wsRun runWhile at h
  rcases hd : line.drop pos with _ | ⟨c, cs⟩
  · rw [hd] at h
    simp at h
  · rw [hd] at h
    by_cases hc : jsWs c
    · refine ⟨c, ?_, hc⟩
      rw [← head?_drop_eq, hd]
      rfl
    · simp [List.takeWhile_cons, hc] at h

/-- The quote-scan end position exceeds any index below its start, as
long as the start is within the line. -/
theorem lt_quoteScanEnd {line : List Char} {p q : Nat} (hq : q < p) (hp : p ≤ line.length) :
    q < quoteScanEnd line p := by
  unfold quoteScanEnd
  cases h : (line.drop p).findIdx? (· == '"') <;> simp <;> omega

set_option maxHeartbeats 1000000 in
/-- Every `tokenize` call strictly advances the stream position. -/
theorem tokenize_pos_lt (line : List Char) (pos : Nat) (st : TokState) :
    pos < (tokenize line pos st).pos := by
  unfold tokenize
  dsimp only
  by_cases hbr : line.get? pos = some '{' <;>
    [rw [if_pos hbr]; rw [if_neg hbr]] <;>
  split_ifs <;> dsimp only <;>
    first
      | omega
      | (rename_i hcond
         obtain ⟨hfst, hsome⟩ := hcond
         have := get?_lt_length hsome
         omega)
      | (rename line.get? _ = some '"' => hquo
         have := get?_lt_length hquo
         apply lt_quoteScanEnd <;> omega)
      | (rename_i hcontra
         exact absurd hcontra.1 hcontra.2)

/-- With at least one unit of fuel per remaining character, the
tokenizer driver exhausts the stream. -/
theorem tokenizeRun_isSome :
    ∀ (fuel : Nat) (line : List Char) (pos : Nat) (st : TokState),
      line.length ≤ pos + fuel → (tokenizeRun fuel line pos st).isSome = true := by
  intro fuel
  induction fuel with
  | zero =>
    intro line pos st hle
    simp only [tokenizeRun]
    have : line.length ≤ pos := by omega
    simp [this]
  | succ n ih =>
    intro line pos st hle
    by_cases hpos : line.length ≤ pos
    · simp [tokenizeRun, hpos]
    · have hprog := tokenize_pos_lt line pos st
      have hih := ih line (tokenize line pos st).pos (tokenize line pos st).state (by omega)
      simp only [tokenizeRun, hpos, if_false]
      cases htr : tokenizeRun n line (tokenize line pos st).pos (tokenize line pos st).state with
      | none => rw [htr] at hih; simp at hih
      | some ts => simp

/-- C8: a single `tokenize` call on a stream with at least one remaining
character consumes at least one character (the new position is strictly
larger), and therefore the driver `tokenizeRun` — given one unit of fuel
per remaining character — always finishes the line: tokenizing any
finite source terminates after finitely many calls. -/
theorem tokenize_progress_terminates :
    (∀ (line : List Char) (pos : Nat) (st : TokState),
        pos < line.length → pos < (tokenize line pos st).pos) ∧
      ∀ (line : List Char) (st : TokState), (tokenizeRun line.length line 0 st).isSome = true :=
  ⟨fun line pos st _ => tokenize_pos_lt line pos st,
   fun line st => tokenizeRun_isSome line.length line 0 st (by omega)⟩

/-- Witness for C8 on the line `a#b`. -/
theorem tokenize_progress_terminates_witness :
    0 < (tokenize (str "a#b") 0 tokStartState).pos ∧
      (tokenizeRun (str "a#b").length (str "a#b") 0 tokStartState).isSome = true :=
  ⟨tokenize_progress_terminates.1 (str "a#b") 0 tokStartState (by decide),
   tokenize_progress_terminates.2 (str "a#b") tokStartState⟩

/-- C4 counterexample: in `a#b` the `#` follows a non-whitespace
character; tokenizing the line produces three plain (untyped) tokens and
no comment token at all, so the text from that `#` to the end of the
line is not recognized as a comment. -/
theorem hash_mid_word_not_comment :
    tokenizeLine (str "a#b") = some [(none, 0, 1), (none, 1, 2), (none, 2, 3)] := by decide

/-- C4 amended: a `#` opens a comment reaching to the end of the line
exactly when it sits at the start of the line or right after a run of
whitespace; the comment's span (current position to end of line) is
attached to a `comment` token so syntax highlighting can style it.  A
`#` directly after a non-whitespace character is consumed as plain
text (see the counterexample). -/
theorem comment_at_sol_or_after_ws :
    (∀ (line : List Char) (st : TokState), line.get? 0 = some '#' →
        tokenize line 0 st = ⟨some TokKind.comment, line.length, st⟩) ∧
      ∀ (line : List Char) (pos : Nat) (st : TokState),
        0 < wsRun line pos → line.get? (pos + wsRun line pos) = some '#' →
          tokenize line pos st = ⟨some TokKind.comment, line.length, st⟩ := by
  constructor
  · intro line st h
    rw [tokenize, if_pos ⟨rfl, h⟩]
  · intro line pos st h1 h2
    obtain ⟨c, hc, hwsc⟩ := wsRun_head h1
    have hb1 : ¬(pos = 0 ∧ line.get? 0 = some '#') := by
      rintro ⟨rfl, h0⟩
      rw [hc] at h0
      cases h0
      simp [jsWs] at hwsc
    rw [tokenize, if_neg hb1, if_pos ⟨h1, h2⟩]

/-- Witness for the C4 amended theorem: `# x` (start of line) and
`x # y` (after whitespace) both tokenize to a comment covering the rest
of the line. -/
theorem comment_at_sol_or_after_ws_witness :
    tokenize (str "# x") 0 tokStartState = ⟨some TokKind.comment, (str "# x").length, tokStartState⟩ ∧
      tokenize (str "x # y") 1 tokStartState =
        ⟨some TokKind.comment, (str "x # y").length, tokStartState⟩ :=
  ⟨comment_at_sol_or_after_ws.1 (str "# x") tokStartState (by decide),
   comment_at_sol_or_after_ws.2 (str "x # y") 1 tokStartState (by decide) (by decide)⟩

/-- If the character at `pos` differs from the first character of `s`,
the literal `s` does not match at `pos`. -/
theorem matchesAt_head_ne {line : List Char} {pos : Nat} {c s0 : Char} {srest : List Char}
    (h : line.get? pos = some c) (hne : (c == s0) = false) :
    matchesAt line pos (s0 :: srest) = false := by
  unfold matchesAt
  rcases hd : line.drop pos with _ | ⟨x, xs⟩
  · rw [← head?_drop_eq, hd] at h
    cases h
  · have hx : x = c := by
      rw [← head?_drop_eq, hd] at h
      cases h
      rfl
    subst hx
    simp only [List.length_cons, List.take_succ_cons]
    have : (x :: List.take srest.length xs == s0 :: srest) =
        (x == s0 && List.take srest.length xs == srest) := rfl
    rw [this, hne, Bool.false_and]

/-- C5: a `@` immediately followed by a whitespace character degrades to
a `TextLiteral` node covering just the `@`, accompanied by one
warning-severity diagnostic — not a hard parse error and not a group
reference; every diagnostic this step emits is warning-level. -/
theorem at_before_ws_degrades (src : List Char) (pos : Nat) (d : Char)
    (hat : src.get? pos = some '@') (hd : src.get? (pos + 1) = some d)
    (hws : jsWs d = true) :
    scanToken src pos =
      ([AstNode.text ['@'] ⟨pos, pos + 1⟩],
       [⟨Severity.warning, str "ambiguous reference marker", ⟨pos, pos + 1⟩⟩], pos + 1) ∧
      ∀ diag ∈ (scanToken src pos).2.1, diag.severity = Severity.warning := by
  have h1 : matchesAt src pos (str "\x7b\x7b") = false := matchesAt_head_ne hat (by decide)
  have h2 : matchesAt src pos (str "[[") = false := matchesAt_head_ne hat (by decide)
  have heq : scanToken src pos =
      ([AstNode.text ['@'] ⟨pos, pos + 1⟩],
       [⟨Severity.warning, str "ambiguous reference marker", ⟨pos, pos + 1⟩⟩], pos + 1) := by
    rw [scanToken, hat]
    simp only [h1, h2, hd]
    simp [hws]
  refine ⟨heq, ?_⟩
  rw [heq]
  intro diag hdiag
  simp only [List.mem_singleton] at hdiag
  rw [hdiag]

/-- Witness for C5 on the source `@ x` at position 0. -/
theorem at_before_ws_degrades_witness :
    scanToken (str "@ x") 0 =
      ([AstNode.text ['@'] ⟨0, 1⟩],
       [⟨Severity.warning, str "ambiguous reference marker", ⟨0, 1⟩⟩], 1) ∧
      ∀ diag ∈ (scanToken (str "@ x") 0).2.1, diag.severity = Severity.warning :=
  at_before_ws_degrades (str "@ x") 0 ' ' (by decide) (by decide) (by decide)

/-- `splitFields` never returns an empty field list. -/
theorem splitFields_ne_nil (sep : Char) (l : List Char) : splitFields sep l ≠ [] := by
  induction l with
  | nil => simp [splitFields]
  | cons c cs ih =>
    by_cases hc : c = sep
    · simp [splitFields, hc]
    · simp only [splitFields, hc, if_false]
      cases h : splitFields sep cs with
      | nil => exact absurd h ih
      | cons f fs => simp

/-- The first field of a split is the text before the first separator. -/
theorem splitFields_get_zero (sep : Char) (l : List Char) :
    (splitFields sep l).get? 0 = some (l.takeWhile (· != sep)) := by
  induction l with
  | nil => simp [splitFields]
  | cons c cs ih =>
    by_cases hc : c = sep
    · subst hc
      simp [splitFields, List.takeWhile_cons]
    · simp only [splitFields, hc, if_false]
      cases h : splitFields sep cs with
      | nil => exact absurd h (splitFields_ne_nil sep cs)
      | cons f fs =>
        rw [h] at ih
        simp only [List.get?_cons_zero, Option.some.injEq] at ih
        simp [List.takeWhile_cons, hc, ih]

/-- The second field of a split is the text between the first and second
separators (or to the end when there is no second one). -/
theorem splitFields_get_one (sep : Char) (l : List Char) (h : sep ∈ l) :
    (splitFields sep l).get? 1 =
      some (((l.dropWhile (· != sep)).drop 1).takeWhile (· != sep)) := by
  induction l with
  | nil => cases h
  | cons c cs ih =>
    by_cases hc : c = sep
    · subst hc
      have hsf : splitFields c (c :: cs) = [] :: splitFields c cs := by
        simp [splitFields]
      rw [hsf, List.get?_cons_succ, splitFields_get_zero]
      simp only [List.dropWhile_cons, bne_self_eq_false, Bool.false_eq_true, if_false,
        List.drop_succ_cons, List.drop_zero]
    · have hmem : sep ∈ cs := by
        rcases List.mem_cons.mp h with h' | h'
        · exact absurd h'.symm hc
        · exact h'
      simp only [splitFields, hc, if_false]
      cases hsf : splitFields sep cs with
      | nil => exact absurd hsf (splitFields_ne_nil sep cs)
      | cons f fs =>
        rw [hsf] at ih
        have ih' := ih hmem
        rw [List.dropWhile_cons]
        have hbne : (c != sep) = true := by simpa using hc
        simp only [hbne, if_true]
        simpa using ih'

/-- `getD 0` of the first two fields is the first field. -/
theorem take_two_getD_zero (xs : List (List Char)) :
    (xs.take 2).getD 0 [] = (xs.get? 0).getD [] := by
  rcases xs with _ | ⟨a, _ | ⟨b, rest⟩⟩ <;> simp [List.getD]

/-- `getD 1` of the first two fields is the second field. -/
theorem take_two_getD_one (xs : List (List Char)) :
    (xs.take 2).getD 1 [] = (xs.get? 1).getD [] := by
  rcases xs with _ | ⟨a, _ | ⟨b, rest⟩⟩ <;> simp [List.getD]

/-- Dropping a whitespace prefix does not change the count of a
non-whitespace character. -/
theorem count_dropWhile_jsWs (l : List Char) (c : Char) (hc : jsWs c = false) :
    (l.dropWhile jsWs).count c = l.count c := by
  conv_rhs => rw [← List.takeWhile_append_dropWhile jsWs l]
  rw [List.count_append]
  have hz : (l.takeWhile jsWs).count c = 0 := by
    rw [List.count_eq_zero]
    intro hmem
    have := List.mem_takeWhile_imp hmem
    rw [hc] at this
    cases this
  omega

/-- Trimming does not change the count of a non-whitespace character. -/
theorem count_jsTrim (l : List Char) (c : Char) (hc : jsWs c = false) :
    (jsTrim l).count c = l.count c := by
  unfold jsTrim
  rw [List.count_reverse, count_dropWhile_jsWs _ _ hc, List.count_reverse,
    count_dropWhile_jsWs _ _ hc]

/-- Trimming a list that starts with a non-whitespace character keeps
that head and right-trims the tail. -/
theorem jsTrim_cons (c : Char) (l : List Char) (hc : jsWs c = false) :
    jsTrim (c :: l) = c :: (l.reverse.dropWhile jsWs).reverse := by
  unfold jsTrim
  rw [List.dropWhile_cons]
  simp only [hc, Bool.false_eq_true, if_false]
  rw [List.reverse_cons, List.dropWhile_append]
  by_cases he : (l.reverse.dropWhile jsWs).isEmpty
  · simp only [he, if_true]
    rw [List.dropWhile_cons]
    simp only [hc, Bool.false_eq_true, if_false, List.dropWhile_nil]
    rw [List.isEmpty_iff] at he
    simp [he]
  · rw [if_neg he, List.reverse_append]
    simp

/-- C10: on a query that starts with `@` and has two or more `/`
characters, `parseVariableQuery` keeps only the first two fields of the
`split("/", 2)`: the group query is the text before the first `/`, the
option query is exactly the text between the first and the second `/`,
and everything from the second `/` onward is discarded. -/
theorem pvq_discards_after_second_slash (q : List Char) (hat : q.head? = some '@')
    (h2 : 2 ≤ q.count '/') :
    (parseVariableQuery q).groupQuery = ((jsTrim q).drop 1).takeWhile (· != '/') ∧
      (parseVariableQuery q).optionQuery =
        ((((jsTrim q).drop 1).dropWhile (· != '/')).drop 1).takeWhile (· != '/') := by
  rcases q with _ | ⟨c, qrest⟩
  · cases hat
  · have hc : c = '@' := by
      simp only [List.head?_cons, Option.some.injEq] at hat
      exact hat
    subst hc
    have htr : jsTrim ('@' :: qrest) = '@' :: (qrest.reverse.dropWhile jsWs).reverse :=
      jsTrim_cons '@' qrest (by decide)
    set rt := (qrest.reverse.dropWhile jsWs).reverse with hrt
    have hcountq : ('@' :: qrest).count '/' = qrest.count '/' := by
      simp [List.count_cons]
    have hcountrt : rt.count '/' = qrest.count '/' := by
      rw [hrt, List.count_reverse, count_dropWhile_jsWs _ _ (by decide), List.count_reverse]
    have hmem : '/' ∈ rt := by
      rw [← List.count_pos_iff]
      omega
    have hcontains : rt.contains '/' = true := by
      rw [List.elem_iff]
      exact hmem
    have hsplit0 := splitFields_get_zero '/' rt
    have hsplit1 := splitFields_get_one '/' rt hmem
    unfold parseVariableQuery
    rw [htr]
    simp only [List.head?_cons, Option.some.injEq, not_true_eq_false, if_false,
      List.drop_succ_cons, List.drop_zero, hcontains, not_true_eq_false]
    rw [take_two_getD_zero, take_two_getD_one, hsplit0, hsplit1]
    simp only [Option.getD_some]
    by_cases hg : rt.takeWhile (· != '/') = []
    · simp [hg]
    · simp [hg]

/-- Witness for C10 on the query `@a/b/c`: the option query is exactly
`b`, the text between the first and second slash; `c` is discarded. -/
theorem pvq_discards_after_second_slash_witness :
    ((parseVariableQuery (str "@a/b/c")).groupQuery =
        ((jsTrim (str "@a/b/c")).drop 1).takeWhile (· != '/') ∧
      (parseVariableQuery (str "@a/b/c")).optionQuery =
        ((((jsTrim (str "@a/b/c")).drop 1).dropWhile (· != '/')).drop 1).takeWhile (· != '/')) ∧
      (parseVariableQuery (str "@a/b/c")).optionQuery = str "b" :=
  ⟨pvq_discards_after_second_slash (str "@a/b/c") (by decide) (by decide), by decide⟩

/-- C7: for the empty query the group search returns every group across
every library exactly once (the result list maps onto the workspace's
own group enumeration), unscored (score 0, no match indices), in
default order, and the unified search wraps exactly that list in the
`Groups` variant; likewise the UI filter with an empty query returns
one entry per variable (a permutation of the variable names, sorted),
with no match filtering applied. -/
theorem empty_query_lists_every_group :
    (∀ ws : Workspace,
        (searchGroups ws []).map
            (fun r => (r.library_id, r.library_name, r.group_name, r.options)) =
          ws.libraries.flatMap
            (fun lib => lib.groups.map fun g => (lib.id, lib.libName, g.name, g.options)) ∧
        (∀ r ∈ searchGroups ws [], r.score = 0 ∧ r.match_indices = []) ∧
        search ws [] = SearchResult.Groups (searchGroups ws [])) ∧
      ∀ (fss : List (List Char) → List Char → List Nat)
        (vars : List (List Char × List (List Char))) (t : QType),
        ((filterVariablesWith fss vars ⟨t, [], []⟩).map (·.name)).Perm (vars.map (·.1)) ∧
        ∀ fv ∈ filterVariablesWith fss vars ⟨t, [], []⟩,
          fv.showAllOptions = true ∧ fv.matchingOptionIndices = [] := by
  constructor
  · intro ws
    have hsg : searchGroups ws [] =
        (allGroups ws).map fun p => ⟨p.1.id, p.1.libName, p.2.name, p.2.options, 0, []⟩ := by
      simp [searchGroups]
    refine ⟨?_, ?_, ?_⟩
    · rw [hsg]
      simp only [allGroups, List.map_flatMap, List.map_map]
      rfl
    · intro r hr
      rw [hsg, List.mem_map] at hr
      obtain ⟨p, hp, rfl⟩ := hr
      exact ⟨rfl, rfl⟩
    · simp [search]
  · intro fss vars t
    have hbranch : filterVariablesWith fss vars ⟨t, [], []⟩ =
        (List.insertionSort entLE vars).map fun e => ⟨e.1, e.2, [], true⟩ := by
      simp [filterVariablesWith]
    constructor
    · rw [hbranch, List.map_map]
      have hcomp : ((fun fv : FilteredVariable => fv.name) ∘
          fun e : List Char × List (List Char) =>
          (⟨e.1, e.2, [], true⟩ : FilteredVariable)) = fun e => e.1 := rfl
      rw [hcomp]
      exact (List.perm_insertionSort entLE vars).map fun e => e.1
    · intro fv hfv
      rw [hbranch, List.mem_map] at hfv
      obtain ⟨e, he, rfl⟩ := hfv
      exact ⟨rfl, rfl⟩

/-- Witness for C7 on the Scenario-A workspace and the demo variables. -/
theorem empty_query_lists_every_group_witness :
    ((⟨str "lib1", str "Library 1", str "Hair",
        [str "blonde hair", str "red hair"], 0, []⟩ : GroupSearchResult).score = 0 ∧
      (⟨str "lib1", str "Library 1", str "Hair",
        [str "blonde hair", str "red hair"], 0, []⟩ : GroupSearchResult).match_indices = []) ∧
      (⟨str "Hair", [str "blonde", str "red"], [], true⟩ : FilteredVariable).showAllOptions = true ∧
      (⟨str "Hair", [str "blonde", str "red"], [], true⟩ : FilteredVariable).matchingOptionIndices = [] :=
  ⟨(empty_query_lists_every_group.1 wsDemo).2.1
      ⟨str "lib1", str "Library 1", str "Hair", [str "blonde hair", str "red hair"], 0, []⟩
      (by decide),
    (empty_query_lists_every_group.2 fuzzySearchStrings varsDemo QType.options).2
      ⟨str "Hair", [str "blonde", str "red"], [], true⟩ (by decide)⟩

/-- The per-group match list is empty exactly when no option matches. -/
theorem matchList_isEmpty (oq : List Char) (os : List (List Char)) :
    (os.filterMap fun o =>
        (fuzzyMatch o oq).map fun si => (⟨o, si.1, si.2⟩ : OptionMatch)).isEmpty =
      !(os.any fun o => (fuzzyMatch o oq).isSome) := by
  induction os with
  | nil => rfl
  | cons o os ih =>
    cases hf : fuzzyMatch o oq with
    | none => simp [List.filterMap_cons, hf, ih]
    | some si => simp [List.filterMap_cons, hf]

/-- For a non-empty query `searchOptionsIn` is the group-wise filter of
its defining `filterMap`. -/
theorem searchOptionsIn_eq (pairs : List (Library × PromptGroup)) (oq : List Char)
    (ho : oq ≠ []) :
    searchOptionsIn pairs oq = pairs.filterMap fun p =>
      let ms := p.2.options.filterMap fun o =>
        (fuzzyMatch o oq).map fun si => (⟨o, si.1, si.2⟩ : OptionMatch)
      if ms.isEmpty then none
      else some ⟨p.1.id, p.1.libName, p.2.name, List.insertionSort omLE ms⟩ := by
  rw [searchOptionsIn, if_neg ho]

/-- Mapping over a `filterMap` agrees with mapping over a `filter` when
the keep-conditions agree pointwise and the mapped images coincide. -/
theorem map_filterMap_eq_map_filter {A B C : Type} (f : A → Option B) (q : A → Bool)
    (g : B → C) (h : A → C) (hq : ∀ a, (f a).isSome = q a)
    (hg : ∀ a b, f a = some b → g b = h a) :
    ∀ l : List A, (l.filterMap f).map g = (l.filter q).map h := by
  intro l
  induction l with
  | nil => rfl
  | cons a l ih =>
    cases hfa : f a with
    | none =>
      have hqa : q a = false := by
        rw [← hq a, hfa]
        rfl
      rw [List.filterMap_cons_none hfa, List.filter_cons, hqa]
      simp only [Bool.false_eq_true, if_false]
      exact ih
    | some b =>
      have hqa : q a = true := by
        rw [← hq a, hfa]
        rfl
      rw [List.filterMap_cons_some hfa, List.filter_cons, hqa]
      simp only [if_true, List.map_cons]
      rw [ih, hg a b hfa]

/-- The groups reported by a non-empty option search are exactly those
with at least one matching option, in input order. -/
theorem searchOptionsIn_names (oq : List Char) (ho : oq ≠ [])
    (pairs : List (Library × PromptGroup)) :
    (searchOptionsIn pairs oq).map (fun r => (r.library_id, r.group_name)) =
      (pairs.filter (groupHasOptionMatch oq)).map fun p => (p.1.id, p.2.name) := by
  rw [searchOptionsIn_eq pairs oq ho]
  refine map_filterMap_eq_map_filter _ _ _ _ ?_ ?_ pairs
  · intro p
    dsimp only
    have hIsE := matchList_isEmpty oq p.2.options
    by_cases hE : (p.2.options.filterMap fun o =>
        (fuzzyMatch o oq).map fun si => (⟨o, si.1, si.2⟩ : OptionMatch)).isEmpty
    · rw [if_pos hE]
      have hany : (p.2.options.any fun o => (fuzzyMatch o oq).isSome) = false := by
        cases hx : (p.2.options.any fun o => (fuzzyMatch o oq).isSome) with
        | false => rfl
        | true =>
          rw [hx] at hIsE
          rw [hIsE] at hE
          cases hE
      rw [groupHasOptionMatch, hany]
      rfl
    · rw [if_neg hE]
      have hany : (p.2.options.any fun o => (fuzzyMatch o oq).isSome) = true := by
        cases hx : (p.2.options.any fun o => (fuzzyMatch o oq).isSome) with
        | true => rfl
        | false => exact absurd (by rw [hx] at hIsE; exact hIsE) hE
      rw [groupHasOptionMatch, hany]
      rfl
  · intro p b hb
    dsimp only at hb
    by_cases hE : (p.2.options.filterMap fun o =>
        (fuzzyMatch o oq).map fun si => (⟨o, si.1, si.2⟩ : OptionMatch)).isEmpty
    · rw [if_pos hE] at hb
      cases hb
    · rw [if_neg hE] at hb
      have := Option.some.inj hb
      rw [← this]

/-- Every result of a non-empty option search stems from an input group,
has a non-empty match list sorted by score descending, and all its match
texts are options of that group. -/
theorem searchOptionsIn_mem (oq : List Char) (ho : oq ≠ [])
    (pairs : List (Library × PromptGroup)) (r : OptionSearchResult)
    (hr : r ∈ searchOptionsIn pairs oq) :
    ∃ p ∈ pairs, r.library_id = p.1.id ∧ r.group_name = p.2.name ∧
      r.matchesList ≠ [] ∧ r.matchesList.Sorted omLE ∧
      ∀ m ∈ r.matchesList, m.text ∈ p.2.options := by
  rw [searchOptionsIn_eq pairs oq ho, List.mem_filterMap] at hr
  obtain ⟨p, hp, hfp⟩ := hr
  dsimp only at hfp
  by_cases hE : (p.2.options.filterMap fun o =>
      (fuzzyMatch o oq).map fun si => (⟨o, si.1, si.2⟩ : OptionMatch)).isEmpty
  · rw [if_pos hE] at hfp
    cases hfp
  · rw [if_neg hE] at hfp
    have hrec := Option.some.inj hfp
    subst hrec
    have hnil : (p.2.options.filterMap fun o =>
        (fuzzyMatch o oq).map fun si => (⟨o, si.1, si.2⟩ : OptionMatch)) ≠ [] := by
      intro hcon
      rw [hcon] at hE
      exact hE rfl
    refine ⟨p, hp, rfl, rfl, ?_, ?_, ?_⟩
    · dsimp only
      intro hcon
      have hlen := (List.perm_insertionSort omLE
        (p.2.options.filterMap fun o =>
          (fuzzyMatch o oq).map fun si => (⟨o, si.1, si.2⟩ : OptionMatch))).length_eq
      rw [hcon] at hlen
      simp only [List.length_nil] at hlen
      exact hnil (List.eq_nil_of_length_eq_zero hlen.symm)
    · exact List.sorted_insertionSort omLE _
    · dsimp only
      intro m hm
      have hm' := (List.perm_insertionSort omLE _).mem_iff.mp hm
      rw [List.mem_filterMap] at hm'
      obtain ⟨o, hoin, hmo⟩ := hm'
      cases hfo : fuzzyMatch o oq with
      | none => rw [hfo] at hmo; cases hmo
      | some si =>
        rw [hfo] at hmo
        have := Option.some.inj hmo
        rw [← this]
        exact hoin

/-- Splitting an appended separator: the scan for the first `/` stops
exactly at the appended one when the left part contains none. -/
theorem takeWhile_dropWhile_append (gq oq : List Char) (hs : ¬ '/' ∈ gq) :
    (gq ++ '/' :: oq).takeWhile (· != '/') = gq ∧
      (gq ++ '/' :: oq).dropWhile (· != '/') = '/' :: oq := by
  induction gq with
  | nil => simp [List.takeWhile_cons, List.dropWhile_cons]
  | cons c cs ih =>
    have hc : (c != '/') = true := by
      simp only [bne_iff_ne, ne_eq]
      intro hcon
      exact hs (by rw [hcon]; exact List.mem_cons_self '/' cs)
    have hs' : ¬ '/' ∈ cs := fun hcon => hs (List.mem_cons_of_mem c hcon)
    obtain ⟨ih1, ih2⟩ := ih hs'
    constructor
    · rw [List.cons_append, List.takeWhile_cons, if_pos hc, ih1]
    · rw [List.cons_append, List.dropWhile_cons, if_pos hc, ih2]

/-- C6: a query `@groupQuery/optionQuery` with both parts non-empty
returns the `Options` variant whose entries are exactly the groups whose
name fuzzy-matches the group query and that have at least one option the
option query fuzzy-matches (one result per such group, groups with no
matching option omitted), each with a non-empty match list sorted by
score descending. -/
theorem search_group_option_query (ws : Workspace) (gq oq : List Char)
    (hg : gq ≠ []) (ho : oq ≠ []) (hs : ¬ '/' ∈ gq) :
    ∃ rs, search ws ('@' :: (gq ++ '/' :: oq)) = SearchResult.Options rs ∧
      rs.map (fun r => (r.library_id, r.group_name)) =
        ((allGroups ws).filter fun p =>
          (fuzzyMatch p.2.name gq).isSome && groupHasOptionMatch oq p).map
          (fun p => (p.1.id, p.2.name)) ∧
      ∀ r ∈ rs, r.matchesList ≠ [] ∧ r.matchesList.Sorted omLE := by
  obtain ⟨htake, hdrop⟩ := takeWhile_dropWhile_append gq oq hs
  have hcontains : (gq ++ '/' :: oq).contains '/' = true := by
    rw [List.elem_iff]
    exact List.mem_append_right gq (List.mem_cons_self '/' oq)
  have hsearch : search ws ('@' :: (gq ++ '/' :: oq)) =
      SearchResult.Options
        (searchOptionsIn ((allGroups ws).filter fun p => (fuzzyMatch p.2.name gq).isSome) oq) := by
    have h0 : ¬('@' :: (gq ++ '/' :: oq)) = [] := by simp
    have h1 : ('@' :: (gq ++ '/' :: oq)).head? = some '@' := rfl
    rw [search, if_neg h0, if_pos h1]
    dsimp only [List.drop_succ_cons, List.drop_zero]
    rw [if_neg (not_not_intro hcontains)]
    rw [htake, hdrop]
    dsimp only [List.drop_succ_cons, List.drop_zero]
    rw [selectedGroups, if_neg hg]
  refine ⟨_, hsearch, ?_, ?_⟩
  · rw [searchOptionsIn_names oq ho, List.filter_filter]
    simp only [Bool.and_comm]
  · intro r hr
    obtain ⟨p, hp, _, _, hne, hsorted, _⟩ := searchOptionsIn_mem oq ho _ r hr
    exact ⟨hne, hsorted⟩

/-- Witness for C6 on the Scenario-A workspace: query `@Ha/bl`. -/
theorem search_group_option_query_witness :
    ∃ rs, search wsDemo ('@' :: (str "Ha" ++ '/' :: str "bl")) = SearchResult.Options rs ∧
      rs.map (fun r => (r.library_id, r.group_name)) =
        ((allGroups wsDemo).filter fun p =>
          (fuzzyMatch p.2.name (str "Ha")).isSome && groupHasOptionMatch (str "bl") p).map
          (fun p => (p.1.id, p.2.name)) ∧
      ∀ r ∈ rs, r.matchesList ≠ [] ∧ r.matchesList.Sorted omLE :=
  search_group_option_query wsDemo (str "Ha") (str "bl") (by decide) (by decide) (by decide)

/-- The search workspace built from the variables has one group per
variable, in order. -/
theorem allGroups_createSearchWorkspace (vars : List (List Char × List (List Char))) :
    allGroups (createSearchWorkspace vars) =
      vars.map fun e =>
        (⟨str "search", str "Search", vars.map fun e2 => ⟨e2.1, [], e2.2⟩⟩, ⟨e.1, [], e.2⟩) := by
  simp [allGroups, createSearchWorkspace, List.map_map]

/-- With pairwise-distinct keys, `find?` on an entry's key returns that
entry. -/
theorem find?_of_nodup_keys {vars : List (List Char × List (List Char))}
    (hnd : (vars.map (·.1)).Nodup) {e : List Char × List (List Char)} (he : e ∈ vars) :
    vars.find? (fun p => p.1 == e.1) = some e := by
  induction vars with
  | nil => cases he
  | cons a as ih =>
    rw [List.map_cons, List.nodup_cons] at hnd
    rcases List.mem_cons.mp he with h' | h'
    · subst h'
      exact List.find?_cons_of_pos as (by simp)
    · by_cases hpa : (a.1 == e.1) = true
      · exfalso
        apply hnd.1
        rw [eq_of_beq hpa]
        exact List.mem_map_of_mem (fun p => p.1) h'
      · rw [List.find?_cons_of_neg as hpa]
        exact ih hnd.2 h'

/-- With pairwise-distinct keys, the record lookup of an entry's key is
that entry's options. -/
theorem jsLookup_of_mem {vars : List (List Char × List (List Char))}
    (hnd : (vars.map (·.1)).Nodup) {e : List Char × List (List Char)} (he : e ∈ vars) :
    jsLookup vars e.1 = e.2 := by
  rw [jsLookup, find?_of_nodup_keys hnd he]
  rfl

/-- An element's index is inside the list. -/
theorem indexOf_lt_of_mem {t : List Char} {os : List (List Char)} (h : t ∈ os) :
    os.indexOf t < os.length := by
  induction os with
  | nil => cases h
  | cons o os ih =>
    by_cases ho : (o == t) = true
    · rw [List.indexOf_cons, ho]
      simp
    · have ho' : (o == t) = false := by
        cases hx : (o == t) with
        | false => rfl
        | true => exact absurd hx ho
      rw [List.indexOf_cons, ho']
      simp only [cond_false, List.length_cons]
      have hts : t ∈ os := by
        rcases List.mem_cons.mp h with h' | h'
        · exact absurd (by rw [h']; exact beq_self_eq_true o) ho
        · exact h'
      have := ih hts
      omega

/-- The index set is non-empty whenever there is at least one match text
and all match texts are options. -/
theorem matchIndexSet_ne_nil {options : List (List Char)} {texts : List (List Char)}
    (hne : texts ≠ []) (hall : ∀ t ∈ texts, t ∈ options) :
    matchIndexSet options texts ≠ [] := by
  cases texts with
  | nil => exact absurd rfl hne
  | cons t ts =>
    intro hcon
    rw [matchIndexSet, List.dedup_eq_nil] at hcon
    have hidx := indexOf_lt_of_mem (hall t (List.mem_cons_self t ts))
    rw [List.filterMap_cons] at hcon
    dsimp only at hcon
    rw [if_pos hidx] at hcon
    cases hcon

/-- A query classified as a plain options search has no group query. -/
theorem pvq_options_no_group (rawQ : List Char)
    (h : (parseVariableQuery rawQ).qtype = QType.options) :
    (parseVariableQuery rawQ).groupQuery = [] := by
  unfold parseVariableQuery at h ⊢
  dsimp only at h ⊢
  split_ifs at h ⊢ <;> first | rfl | (dsimp only at h; cases h)

/-- Option search without a group filter ranges over all groups. -/
theorem searchOptions_none_eq (ws : Workspace) (q : List Char) :
    searchOptions ws q none = searchOptionsIn (allGroups ws) q := by
  rw [searchOptions]
  congr 1
  exact List.filter_true (allGroups ws)

/-- C9: every element that `filterVariables` returns with
`showAllOptions = false` carries a non-empty `matchingOptionIndices` set
— a group none of whose options matches the option query never appears.
The first conjunct covers the Fuse.js revision (for any index-search
function it may call), the second the WASM revision on queries produced
by `parseVariableQuery`, for variable records with distinct names. -/
theorem filterVariables_false_flag_nonempty :
    (∀ (fss : List (List Char) → List Char → List Nat)
        (vars : List (List Char × List (List Char))) (query : ParsedVariableQuery),
        ∀ fv ∈ filterVariablesWith fss vars query,
          fv.showAllOptions = false → fv.matchingOptionIndices ≠ []) ∧
      ∀ (vars : List (List Char × List (List Char))) (rawQ : List Char),
        (vars.map (·.1)).Nodup →
        ∀ fv ∈ filterVariablesWasm vars (parseVariableQuery rawQ),
          fv.showAllOptions = false → fv.matchingOptionIndices ≠ [] := by
  constructor
  · intro fss vars query fv hmem hshow
    rw [filterVariablesWith] at hmem
    dsimp only at hmem
    by_cases hq : query.groupQuery = [] ∧ query.optionQuery = []
    · rw [if_pos hq] at hmem
      rw [List.mem_map] at hmem
      obtain ⟨e, he, rfl⟩ := hmem
      cases hshow
    · rw [if_neg hq] at hmem
      cases hqt : query.qtype
      · -- options
        rw [hqt] at hmem
        dsimp only at hmem
        rw [List.mem_filterMap] at hmem
        obtain ⟨e, he, hf⟩ := hmem
        try dsimp only at hf
        by_cases hE : (fss e.2 query.optionQuery).isEmpty
        · rw [if_pos hE] at hf
          cases hf
        · rw [if_neg hE] at hf
          obtain rfl := Option.some.inj hf
          dsimp only
          intro hcon
          rw [hcon] at hE
          exact hE rfl
      · -- groups
        rw [hqt] at hmem
        dsimp only at hmem
        rw [List.mem_map] at hmem
        obtain ⟨p, hp, rfl⟩ := hmem
        cases hshow
      · -- groups-with-options
        rw [hqt] at hmem
        dsimp only at hmem
        rw [List.mem_filterMap] at hmem
        obtain ⟨p, hp, hf⟩ := hmem
        try dsimp only at hf
        by_cases hin : (fss ((List.insertionSort entLE vars).map (·.1))
            query.groupQuery).contains p.1 = true
        · rw [if_pos hin] at hf
          by_cases ho : query.optionQuery = []
          · rw [if_pos ho] at hf
            obtain rfl := Option.some.inj hf
            cases hshow
          · rw [if_neg ho] at hf
            by_cases hE : (fss p.2.2 query.optionQuery).isEmpty
            · rw [if_pos hE] at hf
              cases hf
            · rw [if_neg hE] at hf
              obtain rfl := Option.some.inj hf
              dsimp only
              intro hcon
              rw [hcon] at hE
              exact hE rfl
        · rw [if_neg hin] at hf
          cases hf
  · intro vars rawQ hnd fv hmem hshow
    rw [filterVariablesWasm] at hmem
    dsimp only at hmem
    by_cases hq : (parseVariableQuery rawQ).groupQuery = [] ∧
        (parseVariableQuery rawQ).optionQuery = []
    · rw [if_pos hq] at hmem
      rw [List.mem_map] at hmem
      obtain ⟨e, he, rfl⟩ := hmem
      cases hshow
    · rw [if_neg hq] at hmem
      cases hqt : (parseVariableQuery rawQ).qtype
      · -- options
        rw [hqt] at hmem
        dsimp only at hmem
        rw [List.mem_map] at hmem
        obtain ⟨r, hrin, rfl⟩ := hmem
        dsimp only
        have hoq : (parseVariableQuery rawQ).optionQuery ≠ [] := by
          intro hcon
          exact hq ⟨pvq_options_no_group rawQ hqt, hcon⟩
        rw [searchOptions_none_eq] at hrin
        obtain ⟨p, hp, hlib, hname, hne0, hsorted, htexts⟩ :=
          searchOptionsIn_mem _ hoq _ r hrin
        rw [allGroups_createSearchWorkspace, List.mem_map] at hp
        obtain ⟨e, he, hpe⟩ := hp
        subst hpe
        have hlook : jsLookup vars r.group_name = e.2 := by
          rw [hname]
          exact jsLookup_of_mem hnd he
        rw [hlook]
        apply matchIndexSet_ne_nil
        · intro hcon
          rw [List.map_eq_nil] at hcon
          exact hne0 hcon
        · intro t ht
          rw [List.mem_map] at ht
          obtain ⟨m, hm, rfl⟩ := ht
          exact htexts m hm
      · -- groups
        rw [hqt] at hmem
        dsimp only at hmem
        rw [List.mem_map] at hmem
        obtain ⟨r, hr, rfl⟩ := hmem
        cases hshow
      · -- groups-with-options
        rw [hqt] at hmem
        dsimp only at hmem
        by_cases ho : (parseVariableQuery rawQ).optionQuery = []
        · rw [if_pos ho] at hmem
          rw [List.mem_map] at hmem
          obtain ⟨r, hr, rfl⟩ := hmem
          cases hshow
        · rw [if_neg ho] at hmem
          rw [List.mem_filterMap] at hmem
          obtain ⟨g, hgin, hf⟩ := hmem
          try dsimp only at hf
          cases hhead : (searchOptions (createSearchWorkspace vars)
              (parseVariableQuery rawQ).optionQuery (some g.group_name)).head? with
          | none =>
            rw [hhead] at hf
            cases hf
          | some r0 =>
            rw [hhead] at hf
            dsimp only at hf
            by_cases hE : r0.matchesList.isEmpty
            · rw [if_pos hE] at hf
              cases hf
            · rw [if_neg hE] at hf
              obtain rfl := Option.some.inj hf
              dsimp only
              have hr0mem : r0 ∈ searchOptions (createSearchWorkspace vars)
                  (parseVariableQuery rawQ).optionQuery (some g.group_name) := by
                cases hl : searchOptions (createSearchWorkspace vars)
                    (parseVariableQuery rawQ).optionQuery (some g.group_name) with
                | nil =>
                  rw [hl] at hhead
                  cases hhead
                | cons x xs =>
                  rw [hl, List.head?_cons] at hhead
                  obtain rfl := Option.some.inj hhead
                  exact List.mem_cons_self _ _
              rw [searchOptions] at hr0mem
              obtain ⟨p, hp, hlib0, hname0, hne0, hs0, htexts0⟩ :=
                searchOptionsIn_mem _ ho _ r0 hr0mem
              rw [List.mem_filter] at hp
              obtain ⟨hpall, hpname⟩ := hp
              rw [allGroups_createSearchWorkspace, List.mem_map] at hpall
              obtain ⟨e, he, hpe⟩ := hpall
              subst hpe
              have hgn : g.group_name = e.1 := (eq_of_beq hpname).symm
              have hlook : jsLookup vars g.group_name = e.2 := by
                rw [hgn]
                exact jsLookup_of_mem hnd he
              rw [hlook]
              apply matchIndexSet_ne_nil
              · intro hcon
                rw [List.map_eq_nil] at hcon
                rw [hcon] at hE
                exact hE rfl
              · intro t ht
                rw [List.mem_map] at ht
                obtain ⟨m, hm, rfl⟩ := ht
                exact htexts0 m hm

/-- Witness for C9: the demo record filtered with the option query `bl`
yields the `Hair` group with match index 0 and `showAllOptions = false`;
the theorem forces the index set non-empty. -/
theorem filterVariables_false_flag_nonempty_witness :
    (⟨str "Hair", [str "blonde", str "red"], [0], false⟩ :
        FilteredVariable).matchingOptionIndices ≠ [] :=
  filterVariables_false_flag_nonempty.1 fuzzySearchStrings varsDemo
    ⟨QType.options, [], str "bl"⟩
    ⟨str "Hair", [str "blonde", str "red"], [0], false⟩ (by decide) (by decide)
